/-
Verification of `x_transformers/nonautoregressive_wrapper.py`.

Shallow embedding conventions:
* Tensors of shape `(batch, seq)` are treated one batch row at a time as
  `List`s (every operation involved is elementwise or row-wise).
* Floats are modelled as rationals `ℚ`.  Scores that the code fills with
  `-torch.finfo(dtype).max` (a sentinel strictly below every confidence score
  actually produced, since the scores are `1 - softmax ∈ [0,1]`) are modelled
  as `WithBot ℚ`, the fill being `⊥`.
* Python's `random()` draws and `torch.rand` draws appear as explicit `ℚ`
  (or `List ℚ`) parameters; the external sequence model's outputs (sampled
  ids, confidence scores) appear as explicit per-round parameters.
* `torch.argsort` / `torch.topk` tie-breaking is unspecified by torch; the
  embedding fixes the stable choice (equal values ordered by index).
-/
import Mathlib

namespace NAW

/-! ### Probability helpers (lines 29-33 of the source)

`sample_prob(prob) = random() < prob` where `random()` is uniform on `[0,1)`;
the draw `u` is made explicit. -/

def sample_prob (prob : ℚ) (u : ℚ) : Bool :=
  decide (u < prob)

def coin_flip (u : ℚ) : Bool :=
  sample_prob (1/2) u

/-- The branch guard `self.no_replace_prob > 0. and coin_flip()`
(line 220 of the source). -/
def noReplaceGate (no_replace_prob : ℚ) (u : ℚ) : Bool :=
  decide (0 < no_replace_prob) && coin_flip u

/-- The branch guard `self.random_token_prob > 0. and coin_flip()`
(line 226 of the source). -/
def randomTokenGate (random_token_prob : ℚ) (u : ℚ) : Bool :=
  decide (0 < random_token_prob) && coin_flip u

/-- Number of firings of a gate when the uniform draw ranges over the grid
`{k/N : k < N}`; `gateFiringCount g N / N` is the firing probability of `g`
on that discretisation of `[0,1)`. -/
def gateFiringCount (gate : ℚ → Bool) (N : ℕ) : ℕ :=
  ((List.range N).filter (fun k : ℕ => gate ((k : ℚ) / (N : ℚ)))).length

/-! ### Sorting primitives

`torch.argsort` (ascending, used in `get_mask_subset_prob`) and `torch.topk`
(descending, used in `generate`) are modelled by sorting index/value pairs;
ties are broken by index. -/

/-- Ascending order on index/value pairs: smaller value first, ties by index. -/
def ascKey (a b : ℕ × ℚ) : Prop :=
  a.2 < b.2 ∨ (a.2 = b.2 ∧ a.1 ≤ b.1)

instance : DecidableRel ascKey := fun a b => by
  unfold ascKey; infer_instance

/-- `logits.argsort(dim = -1)` on one row: result slot `j` holds the index of
the `j`-th smallest entry. -/
def argsortAsc (l : List ℚ) : List ℕ :=
  (List.insertionSort ascKey
    ((List.range l.length).map (fun i => (i, l.getD i 0)))).map Prod.fst

/-- Descending order on index/value pairs over `WithBot ℚ`: larger value
first, ties by index. -/
def descKey (a b : ℕ × WithBot ℚ) : Prop :=
  b.2 < a.2 ∨ (a.2 = b.2 ∧ a.1 ≤ b.1)

instance : DecidableRel descKey := fun a b => by
  unfold descKey; infer_instance

instance : IsTrans (ℕ × WithBot ℚ) descKey where
  trans a b c hab hbc := by
    rcases hab with h1 | ⟨e1, i1⟩
    · rcases hbc with h2 | ⟨e2, _⟩
      · exact Or.inl (lt_trans h2 h1)
      · exact Or.inl (e2 ▸ h1)
    · rcases hbc with h2 | ⟨e2, i2⟩
      · exact Or.inl (e1 ▸ h2)
      · exact Or.inr ⟨e1.trans e2, le_trans i1 i2⟩

instance : IsTotal (ℕ × WithBot ℚ) descKey where
  total a b := by
    rcases lt_trichotomy a.2 b.2 with h | h | h
    · exact Or.inr (Or.inl h)
    · rcases le_total a.1 b.1 with hi | hi
      · exact Or.inl (Or.inr ⟨h, hi⟩)
      · exact Or.inr (Or.inr ⟨h.symm, hi⟩)
    · exact Or.inl (Or.inl h)

/-- Indices of a row sorted by descending value (ties by index):
the order in which `torch.topk` hands out indices. -/
def argsortDesc (l : List (WithBot ℚ)) : List ℕ :=
  (List.insertionSort descKey
    ((List.range l.length).map (fun i => (i, l.getD i ⊥)))).map Prod.fst

/-- `scores.topk(k, dim = -1).indices` on one row. -/
def topkIdx (k : ℕ) (l : List (WithBot ℚ)) : List ℕ :=
  (argsortDesc l).take k

/-! ### `get_mask_subset_prob` (lines 37-50 of the source), one batch row.

`draw` is the row of `torch.rand((batch, seq))`. -/

def get_mask_subset_prob (mask : List Bool) (prob : ℚ) (min_mask : ℚ)
    (draw : List ℚ) : List Bool :=
  let num_to_mask : ℚ := max ((mask.countP (fun b => b) : ℚ) * prob) min_mask
  let logits : List ℚ := List.zipWith (fun m d => if m then d else -1) mask draw
  let randperm : List ℕ := argsortAsc logits
  let num_padding : ℕ := mask.countP (fun b => !b)
  let subset : List Bool :=
    randperm.map (fun v : ℕ =>
      decide ((v : ℚ) - (num_padding : ℚ) < num_to_mask))
  List.zipWith (fun m s => if m then s else false) mask subset

/-! ### Schedules (lines 54-59) and the schedule table of `generate`
(line 142). -/

def linear_schedule (t : ℚ) : ℚ := 1 - t

/-- `.long()`: float-to-int conversion truncates toward zero. -/
def truncLong (q : ℚ) : ℤ :=
  if 0 ≤ q then ⌊q⌋ else ⌈q⌉

/-- `times = torch.linspace(0., 1., steps + 1)` has `times[i] = i / steps`
(torch's linspace hits both endpoints exactly), so
`all_mask_num_tokens = (schedule_fn(times[1:]) * max_seq_len).long()` is the
list below. -/
def all_mask_num_tokens (schedule : ℚ → ℚ) (steps n : ℕ) : List ℤ :=
  (List.range steps).map
    (fun i : ℕ =>
      truncLong (schedule (((i : ℚ) + 1) / (steps : ℚ)) * (n : ℚ)))

/-- The per-round `mask_num_tokens` values as fed to `topk` (k must be a
natural number there; the values are nonnegative whenever the schedule lands
in `[0,1]`, which every theorem below assumes). -/
def mask_num_tokens_nat (schedule : ℚ → ℚ) (steps n : ℕ) : List ℕ :=
  (all_mask_num_tokens schedule steps n).map Int.toNat

/-! ### Constructor schedule dispatch (lines 99-106). -/

/-- The `schedule` argument of `NonAutoregressiveWrapper.__init__`: either a
user-supplied callable or a name. -/
inductive ScheduleArg where
  | callable (f : ℚ → ℚ)
  | name (s : String)

/-- The resolved `self.schedule_fn`. -/
inductive ScheduleFn where
  | linearFn
  | cosineFn
  | customFn (f : ℚ → ℚ)

/-- Lines 99-106 of the source, verbatim control flow: a first, separate
`if callable(schedule)` statement assigns `schedule_fn`, and then an
independent `if/elif/else` chain on the name runs; a callable argument never
equals the strings `'linear'`/`'cosine'`, so control reaches the `else` and
raises `ValueError`. -/
def initScheduleFn (schedule : ScheduleArg) : Except String ScheduleFn :=
  -- `if callable(schedule): self.schedule_fn = schedule`
  let _assigned : Option ScheduleFn :=
    match schedule with
    | .callable f => some (.customFn f)
    | .name _ => none
  -- `if schedule == 'linear': ... elif schedule == 'cosine': ... else: raise`
  match schedule with
  | .name s =>
      if s = "linear" then .ok .linearFn
      else if s = "cosine" then .ok .cosineFn
      else .error ("invalid schedule " ++ s)
  | .callable _ => .error "invalid schedule <callable>"

/-! ### The training forward pass (`NonAutoregressiveWrapper.forward`,
lines 197-257), one batch row.

The external sequence model only consumes `masked` and produces logits; the
loss positions and labels are fixed before it runs, so the model itself does
not appear.  The per-call randomness is explicit: `randTime` is the row's
`uniform_(0, 1)` draw, `randperm` the row of
`torch.rand((b, n)).argsort(dim = -1)`, `u1`/`u2` the two Python-level
`random()` draws of the `coin_flip()` guards, `draw1`/`draw2` the
`torch.rand` rows consumed by `get_mask_subset_prob`, and `randomTokens` the
row of `torch.randint(0, num_tokens, (b, n))`. -/

/-- `x[mask]` on one row: the values at the true positions, in order. -/
def maskedSelect (x : List ℕ) (mask : List Bool) : List ℕ :=
  ((x.zip mask).filter (fun p => p.2)).map Prod.fst

/-- Lines 206-210: the primary mask of a row, `batched_randperm < num_tokens_mask`
where `num_tokens_mask = (schedule(t) * n).clamp(min = 1.)`. -/
def primary_mask (c : ℚ) (randperm : List ℕ) : List Bool :=
  randperm.map (fun r : ℕ => decide ((r : ℚ) < c))

structure ForwardResult where
  lossMask : List Bool
  labels : List ℕ
  maskedInput : List ℕ

def forwardRow (mask_id : ℕ) (no_replace_prob random_token_prob : ℚ)
    (schedule : ℚ → ℚ) (x : List ℕ) (randTime : ℚ) (randperm : List ℕ)
    (u1 u2 : ℚ) (draw1 draw2 : List ℚ) (randomTokens : List ℕ) : ForwardResult :=
  let n := x.length
  let rand_probs := schedule randTime
  let num_tokens_mask : ℚ := max (rand_probs * (n : ℚ)) 1
  let mask : List Bool := primary_mask num_tokens_mask randperm
  -- line 212: `labels = x[mask]`, recorded before any corruption of `x`
  let labels : List ℕ := maskedSelect x mask
  -- lines 217-224
  let replace_mask_id_mask₀ := mask
  let frac_seq_left : ℚ := 1
  let step1 : List Bool × ℚ :=
    if noReplaceGate no_replace_prob u1 then
      let no_replace_prob_mask := get_mask_subset_prob mask no_replace_prob 0 draw1
      (List.zipWith (fun a b => a && !b) replace_mask_id_mask₀ no_replace_prob_mask,
       frac_seq_left - no_replace_prob)
    else (replace_mask_id_mask₀, frac_seq_left)
  -- lines 226-231
  let step2 : List Bool × List ℕ :=
    if randomTokenGate random_token_prob u2 then
      let random_token_prob_mask :=
        get_mask_subset_prob step1.1 (random_token_prob * step1.2) 0 draw2
      (List.zipWith (fun a b => a && !b) step1.1 random_token_prob_mask,
       List.zipWith3 (fun m r q => if m then r else q) random_token_prob_mask randomTokens x)
    else (step1.1, x)
  -- line 233: `masked = torch.where(replace_mask_id_mask, self.mask_id, x)`
  let masked : List ℕ := List.zipWith (fun m q => if m then mask_id else q) step2.1 step2.2
  -- lines 252-255: `F.cross_entropy(logits[mask], labels)` — the loss reads
  -- the logits at `mask` (the primary mask) against `labels`
  { lossMask := mask, labels := labels, maskedInput := masked }

/-! ### The iterative decoder (`NonAutoregressiveWrapper.generate`,
lines 115-195), one batch row.

Each round the external model (plus top-k filtering, temperature softmax and
multinomial sampling) produces a row of sampled ids and a row of confidence
scores `1 - prob(sampled token)`; both are oracle inputs of the round. -/

structure Round where
  sampled : List ℕ
  scores : List ℚ

structure GenState where
  seq : List ℕ
  mask : List Bool

/-- Lines 137-138: `seq = full(shape, mask_id)`, `mask = full(shape, True)`. -/
def initState (n mask_id : ℕ) : GenState :=
  ⟨List.replicate n mask_id, List.replicate n true⟩

/-- One iteration of the decoding loop (the state updates of lines 177-188). -/
def roundStep (mask_id : ℕ) (k : ℕ) (r : Round) (st : GenState) : GenState :=
  -- line 177: `seq = torch.where(mask, sampled_ids, seq)`
  let seq1 : List ℕ :=
    List.zipWith3 (fun m s q => if m then s else q) st.mask r.sampled st.seq
  -- line 185: `scores.masked_fill(~mask, -finfo.max)`; the fill is strictly
  -- below every score the code produces, modelled as `⊥`
  let maskedScores : List (WithBot ℚ) :=
    List.zipWith (fun m s => if m then (s : WithBot ℚ) else ⊥) st.mask r.scores
  -- line 186: `mask_indices = scores.topk(mask_num_tokens, dim = -1).indices`
  let mask_indices : List ℕ := topkIdx k maskedScores
  -- line 187: `mask = zeros_like(scores, dtype = bool).scatter(1, mask_indices, True)`
  let mask' : List Bool :=
    (List.range maskedScores.length).map (fun j => decide (j ∈ mask_indices))
  -- line 188: `seq = seq.masked_fill(mask, self.mask_id)`
  let seq2 : List ℕ := List.zipWith (fun m q => if m then mask_id else q) mask' seq1
  ⟨seq2, mask'⟩

/-- The decoding loop (lines 149-188): one `roundStep` per element of
`zip(all_mask_num_tokens.tolist(), ...)`. -/
def genLoop (mask_id : ℕ) : List (Round × ℕ) → GenState → GenState
  | [], st => st
  | rk :: rest, st => genLoop mask_id rest (roundStep mask_id rk.2 rk.1 st)

/-- The state trace of the decoding loop: the initial state followed by the
state at each round boundary. -/
def genTrace (mask_id : ℕ) : List (Round × ℕ) → GenState → List GenState
  | [], st => [st]
  | rk :: rest, st => st :: genTrace mask_id rest (roundStep mask_id rk.2 rk.1 st)

/-- `generate` with the module's train/eval flag made explicit (lines 128-129
and 190): `was_training = self.training; self.eval(); ...; self.train(was_training)`.
Returns the final state, the flag the loop ran under, and the flag after the
call. -/
def generateWithMode (mask_id n : ℕ) (rks : List (Round × ℕ))
    (training : Bool) : GenState × Bool × Bool :=
  let was_training := training
  let trainingDuringLoop := false
  let result := genLoop mask_id rks (initState n mask_id)
  (result, trainingDuringLoop, was_training)

/-! ### Properties of `argsortDesc` / `topkIdx` -/

lemma indexPairs_map_fst (l : List (WithBot ℚ)) :
    ((List.range l.length).map (fun i => (i, l.getD i ⊥))).map Prod.fst
      = List.range l.length := by
  simp [List.map_map, Function.comp_def]

lemma argsortDesc_perm (l : List (WithBot ℚ)) :
    (argsortDesc l).Perm (List.range l.length) := by
  unfold argsortDesc
  have h := List.perm_insertionSort descKey
    ((List.range l.length).map (fun i => (i, l.getD i ⊥)))
  simpa [List.map_map, Function.comp_def] using h.map Prod.fst

lemma argsortDesc_nodup (l : List (WithBot ℚ)) : (argsortDesc l).Nodup :=
  (argsortDesc_perm l).nodup_iff.mpr (List.nodup_range _)

lemma argsortDesc_length (l : List (WithBot ℚ)) :
    (argsortDesc l).length = l.length := by
  simpa using (argsortDesc_perm l).length_eq

lemma mem_argsortDesc {l : List (WithBot ℚ)} {j : ℕ} :
    j ∈ argsortDesc l ↔ j < l.length := by
  rw [(argsortDesc_perm l).mem_iff, List.mem_range]

lemma topkIdx_length {k : ℕ} {l : List (WithBot ℚ)} (h : k ≤ l.length) :
    (topkIdx k l).length = k := by
  simp [topkIdx, argsortDesc_length, h]

lemma topkIdx_nodup (k : ℕ) (l : List (WithBot ℚ)) : (topkIdx k l).Nodup :=
  (List.take_sublist k (argsortDesc l)).nodup (argsortDesc_nodup l)

lemma topkIdx_mem_lt {k : ℕ} {l : List (WithBot ℚ)} {j : ℕ}
    (h : j ∈ topkIdx k l) : j < l.length :=
  mem_argsortDesc.mp (List.mem_of_mem_take h)

lemma snd_of_mem_indexPairs {l : List (WithBot ℚ)} {p : ℕ × WithBot ℚ}
    (h : p ∈ (List.range l.length).map (fun i => (i, l.getD i ⊥))) :
    p.2 = l.getD p.1 ⊥ := by
  rcases List.mem_map.mp h with ⟨x, -, hx⟩
  rw [← hx]

/-- The selection dominance of `topk`: every selected value is at least every
unselected value. -/
lemma topkIdx_dominates {k : ℕ} {l : List (WithBot ℚ)} {i j : ℕ}
    (hi : i ∈ topkIdx k l) (hj : j < l.length) (hnj : j ∉ topkIdx k l) :
    l.getD j ⊥ ≤ l.getD i ⊥ := by
  set pairs := (List.range l.length).map (fun i => (i, l.getD i ⊥)) with hpairs
  set s := List.insertionSort descKey pairs with hs
  have hsort : List.Sorted descKey s := List.sorted_insertionSort descKey pairs
  have hmap : argsortDesc l = s.map Prod.fst := rfl
  -- position of i (inside the first k slots)
  obtain ⟨pi, hpi, hgi⟩ := List.mem_iff_getElem.mp hi
  have hpik : pi < k := lt_of_lt_of_le hpi (by simp [topkIdx, List.length_take])
  have hpia : pi < (argsortDesc l).length :=
    lt_of_lt_of_le hpi (by simp [topkIdx, List.length_take])
  have hgi' : (argsortDesc l)[pi] = i := by
    simp only [topkIdx] at hgi
    rw [List.getElem_take] at hgi
    exact hgi
  -- position of j (outside the first k slots)
  have hja : j ∈ argsortDesc l := mem_argsortDesc.mpr hj
  obtain ⟨pj, hpja, hgj⟩ := List.mem_iff_getElem.mp hja
  have hpjk : k ≤ pj := by
    by_contra hlt
    push_neg at hlt
    have hjl : pj < (topkIdx k l).length := by
      simp only [topkIdx, List.length_take]
      exact lt_min hlt hpja
    refine hnj (List.mem_iff_getElem.mpr ⟨pj, hjl, ?_⟩)
    simp only [topkIdx]
    rw [List.getElem_take]
    exact hgj
  have hlen : (argsortDesc l).length = s.length := by rw [hmap, List.length_map]
  have hpis : pi < s.length := hlen ▸ hpia
  have hpjs : pj < s.length := hlen ▸ hpja
  -- the sorted relation between the two slots
  have hrel : descKey (s.get ⟨pi, hpis⟩) (s.get ⟨pj, hpjs⟩) :=
    List.pairwise_iff_get.mp hsort ⟨pi, hpis⟩ ⟨pj, hpjs⟩
      (show pi < pj from lt_of_lt_of_le hpik hpjk)
  have hfst_i : (s.get ⟨pi, hpis⟩).1 = i := by
    have h2 := (List.getElem_of_eq hmap hpia).symm.trans hgi'
    rw [List.getElem_map] at h2
    simpa [List.get_eq_getElem] using h2
  have hfst_j : (s.get ⟨pj, hpjs⟩).1 = j := by
    have h2 := (List.getElem_of_eq hmap hpja).symm.trans hgj
    rw [List.getElem_map] at h2
    simpa [List.get_eq_getElem] using h2
  have hsnd_i : (s.get ⟨pi, hpis⟩).2 = l.getD i ⊥ := by
    have hm : s.get ⟨pi, hpis⟩ ∈ pairs :=
      (List.mem_insertionSort descKey).mp (s.get_mem _ _)
    rw [snd_of_mem_indexPairs (hpairs ▸ hm), hfst_i]
  have hsnd_j : (s.get ⟨pj, hpjs⟩).2 = l.getD j ⊥ := by
    have hm : s.get ⟨pj, hpjs⟩ ∈ pairs :=
      (List.mem_insertionSort descKey).mp (s.get_mem _ _)
    rw [snd_of_mem_indexPairs (hpairs ▸ hm), hfst_j]
  rcases hrel with hlt | ⟨heq, -⟩
  · rw [hsnd_i, hsnd_j] at hlt; exact le_of_lt hlt
  · rw [hsnd_i, hsnd_j] at heq; exact le_of_eq heq.symm

/-! ### List utilities -/

lemma zipWith3_nil (f : α → β → γ → δ) (bs : List β) (cs : List γ) :
    List.zipWith3 f [] bs cs = [] := by
  cases bs <;> cases cs <;> rfl

lemma zipWith3_cons_nil (f : α → β → γ → δ) (a : α) (as : List α) (cs : List γ) :
    List.zipWith3 f (a :: as) [] cs = [] := by
  cases cs <;> rfl

lemma zipWith3_cons_cons_nil (f : α → β → γ → δ) (a : α) (as : List α)
    (b : β) (bs : List β) : List.zipWith3 f (a :: as) (b :: bs) [] = [] := rfl

lemma zipWith3_cons (f : α → β → γ → δ) (a : α) (as : List α) (b : β)
    (bs : List β) (c : γ) (cs : List γ) :
    List.zipWith3 f (a :: as) (b :: bs) (c :: cs)
      = f a b c :: List.zipWith3 f as bs cs := rfl

lemma length_zipWith3 (f : α → β → γ → δ) :
    ∀ (as : List α) (bs : List β) (cs : List γ),
      (List.zipWith3 f as bs cs).length = min as.length (min bs.length cs.length)
  | [], bs, cs => by simp [zipWith3_nil]
  | _ :: _, [], _ => by simp [zipWith3_cons_nil]
  | _ :: _, _ :: _, [] => by simp [zipWith3_cons_cons_nil]
  | a :: as, b :: bs, c :: cs => by
      simp only [zipWith3_cons, List.length_cons, length_zipWith3 f as bs cs]
      omega

lemma getElem_zipWith3 (f : α → β → γ → δ) :
    ∀ (as : List α) (bs : List β) (cs : List γ) (j : ℕ)
      (ha : j < as.length) (hb : j < bs.length) (hc : j < cs.length)
      (h : j < (List.zipWith3 f as bs cs).length),
      (List.zipWith3 f as bs cs)[j] = f as[j] bs[j] cs[j]
  | a :: as, b :: bs, c :: cs, 0, _, _, _, _ => rfl
  | a :: as, b :: bs, c :: cs, j + 1, ha, hb, hc, h => by
      simp only [zipWith3_cons, List.getElem_cons_succ]
      exact getElem_zipWith3 f as bs cs j (by simpa using ha) (by simpa using hb)
        (by simpa using hc) (by simpa [zipWith3_cons] using h)

/-- Counting the members of a duplicate-free list of indices inside
`range n`. -/
lemma countP_mem_range {l : List ℕ} {n : ℕ} (hnd : l.Nodup)
    (hlt : ∀ x ∈ l, x < n) :
    (List.range n).countP (fun j => decide (j ∈ l)) = l.length := by
  rw [List.countP_eq_length_filter]
  have hperm : ((List.range n).filter (fun j => decide (j ∈ l))).Perm l := by
    refine List.perm_of_nodup_nodup_toFinset_eq
      ((List.nodup_range n).filter _) hnd ?_
    ext x
    simp only [List.mem_toFinset, List.mem_filter, List.mem_range, decide_eq_true_eq]
    exact ⟨fun h => h.2, fun h => ⟨hlt x h, h⟩⟩
  exact hperm.length_eq

/-! ### Per-round lemmas about `roundStep` -/

lemma roundStep_mask_length {mask_id k : ℕ} {r : Round} {st : GenState} :
    (roundStep mask_id k r st).mask.length
      = min st.mask.length r.scores.length := by
  simp [roundStep, List.length_zipWith]

lemma roundStep_seq_length {mask_id k : ℕ} {r : Round} {st : GenState}
    {n : ℕ} (h1 : st.mask.length = n) (h2 : st.seq.length = n)
    (h3 : r.sampled.length = n) (h4 : r.scores.length = n) :
    (roundStep mask_id k r st).seq.length = n := by
  simp [roundStep, List.length_zipWith, length_zipWith3, h1, h2, h3, h4]

/-- The entry of the new mask at any in-range position is membership in the
`topk` index set. -/
lemma roundStep_mask_getElem {mask_id k : ℕ} {r : Round} {st : GenState}
    {j : ℕ} (hj : j < (roundStep mask_id k r st).mask.length) :
    (roundStep mask_id k r st).mask[j]
      = decide (j ∈ topkIdx k
          (List.zipWith (fun m s => if m then (s : WithBot ℚ) else ⊥)
            st.mask r.scores)) := by
  simp [roundStep, List.getElem_map, List.getElem_range]

lemma roundStep_mask_length_n {mask_id k : ℕ} {r : Round} {st : GenState}
    {n : ℕ} (h1 : st.mask.length = n) (h4 : r.scores.length = n) :
    (roundStep mask_id k r st).mask.length = n := by
  rw [roundStep_mask_length, h1, h4]; simp

/-- The entry of the new sequence at any in-range position. -/
lemma roundStep_seq_getD {mask_id k : ℕ} {r : Round} {st : GenState}
    {n : ℕ} (h1 : st.mask.length = n) (h2 : st.seq.length = n)
    (h3 : r.sampled.length = n) (h4 : r.scores.length = n)
    {j : ℕ} (hj : j < n) :
    (roundStep mask_id k r st).seq.getD j 0
      = if (roundStep mask_id k r st).mask.getD j false
          then mask_id
          else if st.mask.getD j false then r.sampled.getD j 0
          else st.seq.getD j 0 := by
  have hsl := @roundStep_seq_length mask_id k r st n h1 h2 h3 h4
  have hml := @roundStep_mask_length_n mask_id k r st n h1 h4
  rw [List.getD_eq_getElem _ _ (show j < _ by rw [hsl]; exact hj),
    List.getD_eq_getElem _ _ (show j < _ by rw [hml]; exact hj),
    List.getD_eq_getElem _ _ (show j < st.mask.length by rw [h1]; exact hj),
    List.getD_eq_getElem _ _ (show j < r.sampled.length by rw [h3]; exact hj),
    List.getD_eq_getElem _ _ (show j < st.seq.length by rw [h2]; exact hj)]
  simp only [roundStep]
  rw [List.getElem_zipWith]
  congr 1
  exact getElem_zipWith3 _ _ _ _ _
    (show j < st.mask.length by rw [h1]; exact hj)
    (show j < r.sampled.length by rw [h3]; exact hj)
    (show j < st.seq.length by rw [h2]; exact hj)
    (by simp only [length_zipWith3, h1, h2, h3]; simpa using hj)

/-- `countP id` of a boolean list as a filter of its index range. -/
lemma countP_eq_length_filter_range :
    ∀ l : List Bool, l.countP (fun b => b)
      = ((List.range l.length).filter (fun j => l.getD j false)).length
  | [] => by simp
  | a :: t => by
      rw [List.length_cons, List.range_succ_eq_map, List.filter_cons,
        List.filter_map]
      have hcomp : ((fun j => (a :: t).getD j false) ∘ Nat.succ)
          = (fun j => t.getD j false) := by
        funext j; rfl
      rw [hcomp]
      have hgd : (a :: t).getD 0 false = a := rfl
      cases a <;>
        simp [hgd, List.countP_cons, countP_eq_length_filter_range t]

/-- With `k ≤ n` the freshly scattered mask has exactly `k` true entries
(`topk` returns `k` distinct indices). -/
lemma roundStep_mask_count {mask_id k : ℕ} {r : Round} {st : GenState}
    {n : ℕ} (h1 : st.mask.length = n) (h4 : r.scores.length = n)
    (hk : k ≤ n) :
    (roundStep mask_id k r st).mask.countP (fun b => b) = k := by
  have hms : (List.zipWith (fun m s => if m then (s : WithBot ℚ) else ⊥)
      st.mask r.scores).length = n := by
    simp [List.length_zipWith, h1, h4]
  show ((List.range _).map _).countP _ = k
  rw [List.countP_map]
  have hcomp : ((fun b => b) ∘ fun j => decide (j ∈ topkIdx k
      (List.zipWith (fun m s => if m then (s : WithBot ℚ) else ⊥)
        st.mask r.scores)))
      = fun j => decide (j ∈ topkIdx k
        (List.zipWith (fun m s => if m then (s : WithBot ℚ) else ⊥)
          st.mask r.scores)) := rfl
  rw [hcomp, hms, countP_mem_range (topkIdx_nodup _ _)
    (fun x hx => hms ▸ topkIdx_mem_lt hx)]
  exact topkIdx_length (by rw [hms]; exact hk)

/-- A round with `mask_num_tokens = 0` leaves the whole mask false. -/
lemma roundStep_mask_zero {mask_id : ℕ} {r : Round} {st : GenState} (j : ℕ) :
    (roundStep mask_id 0 r st).mask.getD j false = false := by
  by_cases hj : j < (roundStep mask_id 0 r st).mask.length
  · rw [List.getD_eq_getElem _ _ hj, roundStep_mask_getElem hj]
    simp [topkIdx]
  · exact List.getD_eq_default _ _ (le_of_not_lt hj)

/-- The sentinel-filled score row, read at an in-range position. -/
lemma maskedScores_getD {mask : List Bool} {scores : List ℚ} {n j : ℕ}
    (h1 : mask.length = n) (h4 : scores.length = n) (hj : j < n) :
    (List.zipWith (fun m s => if m then (s : WithBot ℚ) else ⊥)
        mask scores).getD j ⊥
      = if mask.getD j false then ((scores.getD j 0 : ℚ) : WithBot ℚ)
        else ⊥ := by
  rw [List.getD_eq_getElem _ _
      (by simp [List.length_zipWith, h1, h4]; exact hj),
    List.getD_eq_getElem _ _ (show j < mask.length by rw [h1]; exact hj),
    List.getD_eq_getElem _ _ (show j < scores.length by rw [h4]; exact hj),
    List.getElem_zipWith]

/-- Re-masking selects only positions that were masked at the start of the
round, provided the target count does not exceed the current masked count:
already-unmasked positions carry the `⊥` sentinel score and lose to every
masked position in the `topk` selection. -/
lemma roundStep_subset {mask_id k : ℕ} {r : Round} {st : GenState}
    {n : ℕ} (h1 : st.mask.length = n) (h4 : r.scores.length = n)
    (hk : k ≤ st.mask.countP (fun b => b)) {j : ℕ}
    (hmj : (roundStep mask_id k r st).mask.getD j false = true) :
    st.mask.getD j false = true := by
  set ms := List.zipWith (fun m s => if m then (s : WithBot ℚ) else ⊥)
    st.mask r.scores with hms_def
  have hms : ms.length = n := by simp [hms_def, List.length_zipWith, h1, h4]
  have hmask_len : (roundStep mask_id k r st).mask.length = n := by
    rw [roundStep_mask_length, h1, h4]; simp
  have hkn : k ≤ n := le_trans hk (h1 ▸ List.countP_le_length _)
  -- the position is in range and selected by topk
  have hj : j < n := by
    by_contra hge
    rw [List.getD_eq_default _ _ (by omega : (roundStep mask_id k r st).mask.length ≤ j)] at hmj
    exact Bool.false_ne_true hmj
  rw [List.getD_eq_getElem _ _ (hmask_len ▸ hj), roundStep_mask_getElem] at hmj
  have hjidx : j ∈ topkIdx k ms := by simpa using hmj
  -- suppose the position was in fact unmasked
  by_contra hfalse
  have hmf : st.mask.getD j false = false := by
    rcases Bool.eq_false_or_eq_true (st.mask.getD j false) with h | h
    · exact absurd h hfalse
    · exact h
  -- the masked positions, as a duplicate-free index list
  set T := (List.range n).filter (fun x => st.mask.getD x false) with hT_def
  have hTlen : T.length = st.mask.countP (fun b => b) := by
    rw [hT_def, ← h1, ← countP_eq_length_filter_range]
  have hTnodup : T.Nodup := (List.nodup_range n).filter _
  have hjT : j ∉ T := by
    intro hmem
    rw [hT_def, List.mem_filter] at hmem
    rw [hmf] at hmem
    exact Bool.false_ne_true hmem.2
  -- pigeonhole: some masked position is not selected
  have hexists : ∃ m ∈ T, m ∉ topkIdx k ms := by
    by_contra hall
    push_neg at hall
    have hsub : (j :: T) ⊆ topkIdx k ms := by
      intro x hx
      rcases List.mem_cons.mp hx with rfl | hx
      · exact hjidx
      · exact hall x hx
    have hnd : (j :: T).Nodup := List.nodup_cons.mpr ⟨hjT, hTnodup⟩
    have hle := (List.subperm_of_subset hnd hsub).length_le
    rw [List.length_cons, hTlen,
      topkIdx_length (by rw [hms]; exact hkn)] at hle
    omega
  obtain ⟨m, hmT, hmidx⟩ := hexists
  rw [hT_def, List.mem_filter] at hmT
  have hmn : m < n := List.mem_range.mp hmT.1
  have hmmask : st.mask.getD m false = true := by simpa using hmT.2
  -- dominance gives `score(m) ≤ ⊥`, impossible for a masked position
  have hdom := topkIdx_dominates hjidx (hms ▸ hmn) hmidx
  have hmsj : ms.getD j ⊥ = ⊥ := by
    rw [hms_def, maskedScores_getD h1 h4 hj, hmf]
    rfl
  have hmsm : ms.getD m ⊥ = ((r.scores.getD m 0 : ℚ) : WithBot ℚ) := by
    rw [hms_def, maskedScores_getD h1 h4 hmn, hmmask]
    rfl
  rw [hmsj, hmsm] at hdom
  exact absurd hdom (WithBot.not_coe_le_bot _)

/-- Frame property of one round: a position that is unmasked and is not
re-selected keeps its sequence value. -/
lemma roundStep_frame {mask_id k : ℕ} {r : Round} {st : GenState}
    {n : ℕ} (h1 : st.mask.length = n) (h2 : st.seq.length = n)
    (h3 : r.sampled.length = n) (h4 : r.scores.length = n) {j : ℕ}
    (hold : st.mask.getD j false = false)
    (hnew : (roundStep mask_id k r st).mask.getD j false = false) :
    (roundStep mask_id k r st).seq.getD j 0 = st.seq.getD j 0 := by
  by_cases hj : j < n
  · rw [roundStep_seq_getD h1 h2 h3 h4 hj, hnew, hold]
    simp
  · have hge : n ≤ j := le_of_not_lt hj
    rw [List.getD_eq_default _ _ (by rw [roundStep_seq_length h1 h2 h3 h4]; exact hge),
      List.getD_eq_default _ _ (h2 ▸ hge)]

/-! ### Trace- and loop-level lemmas -/

lemma genTrace_length (mask_id : ℕ) :
    ∀ (rks : List (Round × ℕ)) (st : GenState),
      (genTrace mask_id rks st).length = rks.length + 1
  | [], _ => rfl
  | rk :: rest, st => by
      simp [genTrace, genTrace_length mask_id rest]

lemma genTrace_getD_zero (mask_id : ℕ) (rks : List (Round × ℕ))
    (st d : GenState) : (genTrace mask_id rks st).getD 0 d = st := by
  cases rks <;> rfl

lemma self_mem_genTrace (mask_id : ℕ) (rks : List (Round × ℕ))
    (st : GenState) : st ∈ genTrace mask_id rks st := by
  cases rks <;> simp [genTrace]

/-- C2 engine: along the trace, the mask count after round `i` is exactly the
`i`-th target count, whenever every target count is at most `n`. -/
lemma genTrace_count (mask_id n : ℕ) :
    ∀ (rks : List (Round × ℕ)) (st : GenState),
      (∀ p ∈ rks, p.1.sampled.length = n ∧ p.1.scores.length = n) →
      (∀ p ∈ rks, p.2 ≤ n) →
      st.mask.length = n → st.seq.length = n →
      ∀ i, i < rks.length →
        ((genTrace mask_id rks st).getD (i + 1) ⟨[], []⟩).mask.countP
            (fun b => b)
          = (rks.getD i (⟨[], []⟩, 0)).2
  | [], _, _, _, _, _, i, hi => absurd hi (by simp)
  | (r, k) :: rest, st, hlen, hks, hm, hs, 0, _ => by
      have h14 := hlen (r, k) (List.mem_cons_self _ _)
      show ((genTrace mask_id rest (roundStep mask_id k r st)).getD 0
        ⟨[], []⟩).mask.countP (fun b => b) = k
      rw [genTrace_getD_zero]
      exact roundStep_mask_count hm h14.2 (hks (r, k) (List.mem_cons_self _ _))
  | (r, k) :: rest, st, hlen, hks, hm, hs, i + 1, hi => by
      have h14 := hlen (r, k) (List.mem_cons_self _ _)
      show ((genTrace mask_id rest (roundStep mask_id k r st)).getD (i + 1)
        ⟨[], []⟩).mask.countP (fun b => b) = (rest.getD i (⟨[], []⟩, 0)).2
      exact genTrace_count mask_id n rest (roundStep mask_id k r st)
        (fun p hp => hlen p (List.mem_cons_of_mem _ hp))
        (fun p hp => hks p (List.mem_cons_of_mem _ hp))
        (roundStep_mask_length_n hm h14.2)
        (roundStep_seq_length hm hs h14.1 h14.2)
        i (by simpa using hi)

/-- C9 engine: along the trace, each round's mask is a subset of the previous
round's mask, whenever the target counts form a non-increasing chain starting
at or below the initial masked count. -/
lemma genTrace_subset (mask_id n : ℕ) :
    ∀ (rks : List (Round × ℕ)) (st : GenState),
      (∀ p ∈ rks, p.1.sampled.length = n ∧ p.1.scores.length = n) →
      st.mask.length = n → st.seq.length = n →
      List.Chain (fun a b => b ≤ a) (st.mask.countP (fun b => b))
        (rks.map Prod.snd) →
      ∀ i, i < rks.length → ∀ j,
        ((genTrace mask_id rks st).getD (i + 1) ⟨[], []⟩).mask.getD j false
            = true →
        ((genTrace mask_id rks st).getD i ⟨[], []⟩).mask.getD j false
            = true
  | [], _, _, _, _, _, i, hi => absurd hi (by simp)
  | (r, k) :: rest, st, hlen, hm, hs, hchain, 0, _ => by
      have h14 := hlen (r, k) (List.mem_cons_self _ _)
      rw [List.map_cons, List.chain_cons] at hchain
      intro j hj
      show st.mask.getD j false = true
      have hj' : (roundStep mask_id k r st).mask.getD j false = true := by
        have := hj
        rwa [show ((genTrace mask_id ((r, k) :: rest) st).getD 1 ⟨[], []⟩)
          = (genTrace mask_id rest (roundStep mask_id k r st)).getD 0 ⟨[], []⟩
          from rfl, genTrace_getD_zero] at this
      exact roundStep_subset hm h14.2 hchain.1 hj'
  | (r, k) :: rest, st, hlen, hm, hs, hchain, i + 1, hi => by
      have h14 := hlen (r, k) (List.mem_cons_self _ _)
      rw [List.map_cons, List.chain_cons] at hchain
      have hcnt : (roundStep mask_id k r st).mask.countP (fun b => b) = k :=
        roundStep_mask_count hm h14.2
          (le_trans hchain.1 (hm ▸ List.countP_le_length _))
      intro j
      show ((genTrace mask_id rest (roundStep mask_id k r st)).getD (i + 1)
          ⟨[], []⟩).mask.getD j false = true →
        ((genTrace mask_id rest (roundStep mask_id k r st)).getD i
          ⟨[], []⟩).mask.getD j false = true
      exact genTrace_subset mask_id n rest (roundStep mask_id k r st)
        (fun p hp => hlen p (List.mem_cons_of_mem _ hp))
        (roundStep_mask_length_n hm h14.2)
        (roundStep_seq_length hm hs h14.1 h14.2)
        (by rw [hcnt]; exact hchain.2)
        i (by simpa using hi) j

/-- C8 engine: a position unmasked on entry and unmasked at every round
boundary keeps its sequence value through the whole loop. -/
lemma genLoop_frame (mask_id n : ℕ) :
    ∀ (rks : List (Round × ℕ)) (st : GenState),
      (∀ p ∈ rks, p.1.sampled.length = n ∧ p.1.scores.length = n) →
      st.mask.length = n → st.seq.length = n →
      ∀ j, st.mask.getD j false = false →
      (∀ st' ∈ genTrace mask_id rks st, st'.mask.getD j false = false) →
      (genLoop mask_id rks st).seq.getD j 0 = st.seq.getD j 0
  | [], _, _, _, _, _, _, _ => rfl
  | (r, k) :: rest, st, hlen, hm, hs, j, hj0, htr => by
      have h14 := hlen (r, k) (List.mem_cons_self _ _)
      have hst2 : (roundStep mask_id k r st).mask.getD j false = false :=
        htr _ (by
          show roundStep mask_id k r st ∈ st :: genTrace mask_id rest _
          exact List.mem_cons_of_mem _ (self_mem_genTrace _ _ _))
      have hframe := @roundStep_frame mask_id k r st n hm hs h14.1 h14.2 j
        hj0 hst2
      show (genLoop mask_id rest (roundStep mask_id k r st)).seq.getD j 0
        = st.seq.getD j 0
      rw [← hframe]
      exact genLoop_frame mask_id n rest (roundStep mask_id k r st)
        (fun p hp => hlen p (List.mem_cons_of_mem _ hp))
        (roundStep_mask_length_n hm h14.2)
        (roundStep_seq_length hm hs h14.1 h14.2)
        j hst2
        (fun st' hst' => htr st' (List.mem_cons_of_mem _ hst'))

/-- Invariant step for C5: after a round, every unmasked position holds a
sampled (non-mask) token or a previously validated token. -/
lemma roundStep_no_mask_inv {mask_id k : ℕ} {r : Round} {st : GenState}
    {n : ℕ} (h1 : st.mask.length = n) (h2 : st.seq.length = n)
    (h3 : r.sampled.length = n) (h4 : r.scores.length = n)
    (hsamp : ∀ v ∈ r.sampled, v ≠ mask_id)
    (hinv : ∀ j, j < n → st.mask.getD j false = false →
      st.seq.getD j 0 ≠ mask_id) :
    ∀ j, j < n → (roundStep mask_id k r st).mask.getD j false = false →
      (roundStep mask_id k r st).seq.getD j 0 ≠ mask_id := by
  intro j hj hnew
  rw [roundStep_seq_getD h1 h2 h3 h4 hj, hnew]
  simp only [Bool.false_eq_true, if_false]
  by_cases hm : st.mask.getD j false = true
  · simp only [hm, if_true]
    rw [List.getD_eq_getElem _ _
      (show j < r.sampled.length by rw [h3]; exact hj)]
    exact hsamp _ (List.getElem_mem _)
  · have hmf : st.mask.getD j false = false := by
      rcases Bool.eq_false_or_eq_true (st.mask.getD j false) with h | h
      · exact absurd h hm
      · exact h
    simp only [hmf, Bool.false_eq_true, if_false]
    exact hinv j hj hmf

/-- C5 engine: if the last round's target count is `0` and no sampled token
equals the mask id, the loop output contains no mask id. -/
lemma genLoop_no_mask (mask_id n : ℕ) :
    ∀ (rks : List (Round × ℕ)) (st : GenState),
      (∀ p ∈ rks, p.1.sampled.length = n ∧ p.1.scores.length = n) →
      (∀ p ∈ rks, ∀ v ∈ p.1.sampled, v ≠ mask_id) →
      st.mask.length = n → st.seq.length = n →
      (∀ j, j < n → st.mask.getD j false = false →
        st.seq.getD j 0 ≠ mask_id) →
      (∃ rk, rks.getLast? = some rk ∧ rk.2 = 0) →
      ∀ v ∈ (genLoop mask_id rks st).seq, v ≠ mask_id
  | [], _, _, _, _, _, _, hlast => by
      obtain ⟨rk, hrk, -⟩ := hlast
      simp at hrk
  | [(r, k)], st, hlen, hsamp, hm, hs, hinv, hlast => by
      obtain ⟨rk, hrk, hk0⟩ := hlast
      have hrk' : (r, k) = rk := by simpa using hrk
      have hk : k = 0 := by rw [← hrk'] at hk0; exact hk0
      subst hk
      have h14 := hlen (r, 0) (List.mem_cons_self _ _)
      intro v hv
      have hinv' := @roundStep_no_mask_inv mask_id 0 r st n hm hs h14.1 h14.2
        (hsamp (r, 0) (List.mem_cons_self _ _)) hinv
      have hseq_len := @roundStep_seq_length mask_id 0 r st n hm hs h14.1 h14.2
      show v ≠ mask_id
      obtain ⟨idx, hidx, hval⟩ := List.mem_iff_getElem.mp hv
      have hidx' : idx < n := by
        have : (genLoop mask_id [(r, 0)] st).seq
            = (roundStep mask_id 0 r st).seq := rfl
        rw [this] at hidx
        exact hseq_len ▸ hidx
      have := hinv' idx hidx' (roundStep_mask_zero idx)
      rw [List.getD_eq_getElem _ _ (hseq_len ▸ hidx')] at this
      rw [← hval]
      exact this
  | (r, k) :: rk2 :: rest, st, hlen, hsamp, hm, hs, hinv, hlast => by
      have h14 := hlen (r, k) (List.mem_cons_self _ _)
      show ∀ v ∈ (genLoop mask_id (rk2 :: rest) (roundStep mask_id k r st)).seq,
        v ≠ mask_id
      exact genLoop_no_mask mask_id n (rk2 :: rest) (roundStep mask_id k r st)
        (fun p hp => hlen p (List.mem_cons_of_mem _ hp))
        (fun p hp => hsamp p (List.mem_cons_of_mem _ hp))
        (roundStep_mask_length_n hm h14.2)
        (roundStep_seq_length hm hs h14.1 h14.2)
        (roundStep_no_mask_inv hm hs h14.1 h14.2
          (hsamp (r, k) (List.mem_cons_self _ _)) hinv)
        (by
          obtain ⟨rk, hrk, hk0⟩ := hlast
          exact ⟨rk, by simpa using hrk, hk0⟩)

/-- Over the grid `{k/100 : k < 100}` any gate that agrees with the fair
`coin_flip` fires exactly 50 times out of 100. -/
lemma gateFiringCount_coin (g : ℚ → Bool) (hg : ∀ u, g u = coin_flip u) :
    gateFiringCount g 100 = 50 := by
  unfold gateFiringCount
  simp only [Nat.cast_ofNat]
  have hcongr : ∀ k ∈ List.range 100,
      g ((k : ℚ) / (100 : ℚ)) = decide (k < 50) := by
    intro k hk
    rw [hg]
    simp only [coin_flip, sample_prob]
    rw [decide_eq_decide, div_lt_iff₀ (by norm_num : (0 : ℚ) < 100)]
    constructor
    · intro h
      have h50 : (k : ℚ) < 50 := by linarith
      exact_mod_cast h50
    · intro h
      have h50 : (k : ℚ) < 50 := by exact_mod_cast h
      linarith
  rw [List.filter_congr hcongr]
  decide

lemma noReplaceGate_eq_coin {p : ℚ} (hp : 0 < p) (u : ℚ) :
    noReplaceGate p u = coin_flip u := by
  simp [noReplaceGate, decide_eq_true hp]

lemma randomTokenGate_eq_coin {q : ℚ} (hq : 0 < q) (u : ℚ) :
    randomTokenGate q u = coin_flip u := by
  simp [randomTokenGate, decide_eq_true hq]

/-! ### Schedule arithmetic -/

lemma toNat_truncLong_le {f : ℚ} {n : ℕ} (h1 : f ≤ 1) :
    (truncLong (f * (n : ℚ))).toNat ≤ n := by
  have hfn : f * (n : ℚ) ≤ (n : ℚ) := mul_le_of_le_one_left (Nat.cast_nonneg n) h1
  unfold truncLong
  by_cases h0 : 0 ≤ f * (n : ℚ)
  · rw [if_pos h0, Int.toNat_le]
    calc ⌊f * (n : ℚ)⌋ ≤ ⌊(n : ℚ)⌋ := Int.floor_le_floor hfn
    _ = (n : ℤ) := Int.floor_natCast n
  · rw [if_neg h0, Int.toNat_le]
    have hc : ⌈f * (n : ℚ)⌉ ≤ (0 : ℤ) :=
      Int.ceil_le.mpr (by push_cast; linarith [lt_of_not_le h0])
    exact le_trans hc (Int.natCast_nonneg n)

lemma truncLong_mono {a b : ℚ} (h : a ≤ b) : truncLong a ≤ truncLong b := by
  unfold truncLong
  by_cases ha : 0 ≤ a <;> by_cases hb : 0 ≤ b
  · rw [if_pos ha, if_pos hb]; exact Int.floor_le_floor h
  · exact absurd (le_trans ha h) hb
  · rw [if_neg ha, if_pos hb]
    calc ⌈a⌉ ≤ 0 := Int.ceil_le.mpr (by push_cast; linarith [lt_of_not_le ha])
    _ ≤ ⌊b⌋ := Int.le_floor.mpr (by push_cast; exact hb)
  · rw [if_neg ha, if_neg hb]; exact Int.ceil_le_ceil h

lemma mask_num_tokens_nat_le {sched : ℚ → ℚ} {steps n : ℕ}
    (hsched : ∀ i, i < steps →
      sched (((i : ℚ) + 1) / (steps : ℚ)) ≤ 1) :
    ∀ x ∈ mask_num_tokens_nat sched steps n, x ≤ n := by
  intro x hx
  simp only [mask_num_tokens_nat, all_mask_num_tokens, List.map_map,
    List.mem_map, Function.comp, List.mem_range] at hx
  obtain ⟨i, hi, rfl⟩ := hx
  exact toNat_truncLong_le (hsched i hi)

lemma mask_num_tokens_nat_length (sched : ℚ → ℚ) (steps n : ℕ) :
    (mask_num_tokens_nat sched steps n).length = steps := by
  simp [mask_num_tokens_nat, all_mask_num_tokens]

/-- A non-increasing step function on `range m`, bounded at `0`, yields a
`Chain` of non-increasing values. -/
lemma chain_ge_map_range : ∀ (m : ℕ) (f : ℕ → ℕ) (a : ℕ),
    (0 < m → f 0 ≤ a) → (∀ i, i + 1 < m → f (i + 1) ≤ f i) →
    List.Chain (fun x y => y ≤ x) a ((List.range m).map f)
  | 0, f, a, _, _ => by simp
  | m + 1, f, a, h0, hstep => by
      rw [List.range_succ_eq_map, List.map_cons, List.map_map]
      exact List.Chain.cons (h0 (Nat.succ_pos m))
        (chain_ge_map_range m (f ∘ Nat.succ) (f 0)
          (fun _ => hstep 0 (by omega))
          (fun i hi => hstep (i + 1) (by omega)))

/-! ### Claim theorems -/

/-- C1 (code_bug): the claim says construction succeeds for `'linear'`,
`'cosine'` and any user-supplied callable, and raises exactly for
unrecognized non-callable values.  The names behave as claimed, but because
the `if callable(schedule)` statement (line 99) is not chained into the
`if/elif/else` name dispatch (lines 101-106), every callable argument falls
through to the `else` branch and raises `ValueError` at construction time. -/
theorem schedule_dispatch_eval :
    initScheduleFn (.callable (fun t => 1 - t))
        = .error "invalid schedule <callable>"
    ∧ initScheduleFn (.name "linear") = .ok .linearFn
    ∧ initScheduleFn (.name "cosine") = .ok .cosineFn
    ∧ initScheduleFn (.name "bogus") = .error "invalid schedule bogus" :=
  ⟨rfl, rfl, rfl, rfl⟩

/-- C3 (counterexample): with the default configuration
`no_replace_prob = 0.15`, `random_token_prob = 0.05`, each gate fires on 50
of the 100 grid draws `u = k/100` — firing probability `1/2`, not the
configured probability as the claim states (`0.15·100 = 15 ≠ 50`,
`0.05·100 = 5 ≠ 50`). -/
theorem gate_probability_counterexample :
    gateFiringCount (noReplaceGate (15/100)) 100 = 50
    ∧ gateFiringCount (randomTokenGate (5/100)) 100 = 50
    ∧ ¬((gateFiringCount (noReplaceGate (15/100)) 100 : ℚ) = (15/100) * 100)
    ∧ ¬((gateFiringCount (randomTokenGate (5/100)) 100 : ℚ) = (5/100) * 100) := by
  have h1 : gateFiringCount (noReplaceGate (15/100)) 100 = 50 :=
    gateFiringCount_coin _ (noReplaceGate_eq_coin (by norm_num))
  have h2 : gateFiringCount (randomTokenGate (5/100)) 100 = 50 :=
    gateFiringCount_coin _ (randomTokenGate_eq_coin (by norm_num))
  refine ⟨h1, h2, ?_, ?_⟩
  · rw [h1]; norm_num
  · rw [h2]; norm_num

/-- C3 (amended): whenever the configured probability is positive, the
no-replace gate and the random-token gate each fire exactly when the
fair `coin_flip()` fires, i.e. on the draws `u < 1/2` — probability `1/2`
(50 of 100 uniform grid draws) independent of the configured value.  The
configured probabilities only scale the selected subsets, not the gates. -/
theorem gates_fire_with_probability_half (p q u : ℚ) (hp : 0 < p)
    (hq : 0 < q) :
    noReplaceGate p u = decide (u < 1/2)
    ∧ randomTokenGate q u = decide (u < 1/2)
    ∧ gateFiringCount (noReplaceGate p) 100 = 50
    ∧ gateFiringCount (randomTokenGate q) 100 = 50 := by
  refine ⟨?_, ?_, gateFiringCount_coin _ (noReplaceGate_eq_coin hp),
    gateFiringCount_coin _ (randomTokenGate_eq_coin hq)⟩
  · rw [noReplaceGate_eq_coin hp]; rfl
  · rw [randomTokenGate_eq_coin hq]; rfl

/-- Witness for the amended C3 theorem at the default configuration. -/
theorem gates_fire_with_probability_half_witness :
    noReplaceGate (15/100) (3/10) = decide ((3/10 : ℚ) < 1/2)
    ∧ randomTokenGate (5/100) (3/10) = decide ((3/10 : ℚ) < 1/2)
    ∧ gateFiringCount (noReplaceGate (15/100)) 100 = 50
    ∧ gateFiringCount (randomTokenGate (5/100)) 100 = 50 :=
  gates_fire_with_probability_half (15/100) (5/100) (3/10)
    (by norm_num) (by norm_num)

/-- C4 (confirmed): in the forward pass the loss-contributing positions are
exactly the primary mask `batched_randperm < (schedule(t)·n).clamp(min=1)`
and the labels are the original tokens gathered at that mask — both
independent of the coin flips `u1`, `u2`, the subset draws `d1`, `d2`, the
random-token row `rts` and the probabilities `p1`, `p2` that drive the
no-replace and random-token corruption branches. -/
theorem compute_loss_targets (mask_id : ℕ) (p1 p2 : ℚ) (sched : ℚ → ℚ)
    (x : List ℕ) (t : ℚ) (randperm : List ℕ) (u1 u2 : ℚ)
    (d1 d2 : List ℚ) (rts : List ℕ) :
    (forwardRow mask_id p1 p2 sched x t randperm u1 u2 d1 d2 rts).lossMask
        = primary_mask (max (sched t * (x.length : ℚ)) 1) randperm
    ∧ (forwardRow mask_id p1 p2 sched x t randperm u1 u2 d1 d2 rts).labels
        = maskedSelect x
            (primary_mask (max (sched t * (x.length : ℚ)) 1) randperm) :=
  ⟨rfl, rfl⟩

/-- C6 (confirmed): `get_mask_subset_prob` never selects a position outside
the eligible input mask, for every mask, probability, minimum and draw. -/
theorem get_mask_subset_prob_subset (mask : List Bool) (prob min_mask : ℚ)
    (draw : List ℚ) (j : ℕ)
    (h : (get_mask_subset_prob mask prob min_mask draw).getD j false = true) :
    mask.getD j false = true := by
  by_cases hj : j < (get_mask_subset_prob mask prob min_mask draw).length
  · rw [List.getD_eq_getElem _ _ hj] at h
    have hjm : j < mask.length := by
      have := hj
      simp only [get_mask_subset_prob, List.length_zipWith] at this
      omega
    rw [List.getD_eq_getElem _ _ hjm]
    by_cases hm : mask.get ⟨j, hjm⟩ = true
    · rw [List.get_eq_getElem] at hm
      exact hm
    · exfalso
      rw [List.get_eq_getElem] at hm
      have hx : (get_mask_subset_prob mask prob min_mask draw)[j] = false := by
        simp only [get_mask_subset_prob, List.getElem_zipWith]
        rw [if_neg hm]
      rw [hx] at h
      exact Bool.false_ne_true h
  · rw [List.getD_eq_default _ _ (le_of_not_lt hj)] at h
    exact absurd h (by simp)

/-- Witness for C6 at a concrete input on which a position is selected. -/
theorem get_mask_subset_prob_subset_witness :
    (get_mask_subset_prob [true, false] 1 0
        [mkRat 1 2, mkRat 1 3]).getD 0 false = true
    ∧ [true, false].getD 0 false = true :=
  ⟨by with_unfolding_all decide,
   get_mask_subset_prob_subset [true, false] 1 0 [mkRat 1 2, mkRat 1 3] 0
     (by with_unfolding_all decide)⟩

/-- C7 (code_bug): the claim says the per-row selected count is
`max(round(E·p), min_mask)` within `±1`.  On the row
`mask = [T,F,T,F,T,F,T,F]` (`E = 4` eligible positions), `p = 1/2`,
`min_mask = 0` and the uniform draw below, the code selects **4** positions,
but the claim allows at most `round(4·(1/2)) + 1 = 3`: the single `argsort`
(line 43 of the source) yields position indices, not ranks, so
`randperm -= num_padding; randperm < num_to_mask` compares indices against
the count and over- or under-selects depending on the draw. -/
theorem get_mask_subset_prob_count_violation :
    ((get_mask_subset_prob [true, false, true, false, true, false, true, false]
        (mkRat 1 2) 0
        [mkRat 1 10, mkRat 9 10, mkRat 3 10, mkRat 9 10,
         mkRat 2 10, mkRat 9 10, mkRat 4 10, mkRat 9 10]).countP (fun b => b)
      = 4)
    ∧ ([true, false, true, false, true, false, true, false].countP
        (fun b => b) = 4)
    ∧ ¬((4 : ℚ) ≤ (4 : ℚ) * mkRat 1 2 + 1) := by
  refine ⟨by with_unfolding_all decide, by decide, by with_unfolding_all decide⟩

/-- C10 (confirmed): `generate` saves `self.training` on entry, runs the
whole decoding loop in eval mode, and restores the saved flag before
returning, so the module's training flag after the call equals its value
before the call. -/
theorem generate_restores_training_mode (mask_id n : ℕ)
    (rks : List (Round × ℕ)) (training : Bool) :
    (generateWithMode mask_id n rks training).2.1 = false
    ∧ (generateWithMode mask_id n rks training).2.2 = training :=
  ⟨rfl, rfl⟩

/-- C2 (confirmed): at the end of every decoding round `i`, the number of
true entries in the row's mask equals exactly `all_mask_num_tokens[i]`, the
schedule fraction at the `i`-th sampled time multiplied by the maximum
sequence length and truncated to an integer — for every schedule whose
fractions lie in `[0,1]` and every behaviour of the external model
(`rounds` ranges over all sampled-id/score sequences of row length `n`). -/
theorem generate_mask_count_exact (mask_id n steps : ℕ) (sched : ℚ → ℚ)
    (rounds : List Round) (hr : rounds.length = steps)
    (hlen : ∀ r ∈ rounds, r.sampled.length = n ∧ r.scores.length = n)
    (hsched : ∀ i, i < steps → sched (((i : ℚ) + 1) / (steps : ℚ)) ≤ 1)
    (i : ℕ) (hi : i < steps) :
    ((genTrace mask_id (rounds.zip (mask_num_tokens_nat sched steps n))
        (initState n mask_id)).getD (i + 1) ⟨[], []⟩).mask.countP
        (fun b => b)
      = (mask_num_tokens_nat sched steps n).getD i 0 := by
  have hks_len := mask_num_tokens_nat_length sched steps n
  have hks_le := @mask_num_tokens_nat_le sched steps n hsched
  have hzip_len : (rounds.zip (mask_num_tokens_nat sched steps n)).length
      = steps := by
    simp [List.length_zip, hr, hks_len]
  have h := genTrace_count mask_id n
    (rounds.zip (mask_num_tokens_nat sched steps n)) (initState n mask_id)
    (fun p hp => by
      obtain ⟨r', k'⟩ := p
      exact hlen r' (List.of_mem_zip hp).1)
    (fun p hp => by
      obtain ⟨r', k'⟩ := p
      exact hks_le k' (List.of_mem_zip hp).2)
    (by simp [initState]) (by simp [initState])
    i (by rw [hzip_len]; exact hi)
  rw [h, List.getD_eq_getElem _ _ (show i < _ by rw [hzip_len]; exact hi),
    List.getD_eq_getElem _ _ (show i < _ by rw [hks_len]; exact hi),
    List.getElem_zip]

/-- Witness for C2: two linear-schedule rounds on rows of length 2; after
round 0 the mask holds exactly `all_mask_num_tokens[0] = 1` position. -/
theorem generate_mask_count_exact_witness :
    ((genTrace 9 ([⟨[1, 0], [mkRat 1 2, mkRat 1 4]⟩,
        ⟨[0, 1], [mkRat 1 3, mkRat 2 3]⟩].zip
          (mask_num_tokens_nat linear_schedule 2 2))
        (initState 2 9)).getD 1 ⟨[], []⟩).mask.countP (fun b => b)
      = (mask_num_tokens_nat linear_schedule 2 2).getD 0 0 :=
  generate_mask_count_exact 9 2 2 linear_schedule
    [⟨[1, 0], [mkRat 1 2, mkRat 1 4]⟩, ⟨[0, 1], [mkRat 1 3, mkRat 2 3]⟩]
    (by decide) (by decide)
    (by
      intro i hi
      interval_cases i <;> (unfold linear_schedule; norm_num))
    0 (by decide)

/-- C5 (confirmed): with the linear schedule and any `steps ≥ 1`, the final
round's target mask count is `0` (the last sampled time is exactly `1` and
`linear_schedule 1 = 0`), and if the reserved `mask_id` lies outside the
vocabulary range `[0, num_tokens)` — i.e. `num_tokens ≤ mask_id` — the
returned sequence contains no occurrence of the mask id. -/
theorem generate_linear_full_unmask (steps n num_tokens mask_id : ℕ)
    (rounds : List Round) (hsteps : 1 ≤ steps) (hr : rounds.length = steps)
    (hlen : ∀ r ∈ rounds, r.sampled.length = n ∧ r.scores.length = n)
    (hvocab : ∀ r ∈ rounds, ∀ v ∈ r.sampled, v < num_tokens)
    (hmaskid : num_tokens ≤ mask_id) :
    (mask_num_tokens_nat linear_schedule steps n).getD (steps - 1) 1 = 0
    ∧ mask_id ∉ (genLoop mask_id
        (rounds.zip (mask_num_tokens_nat linear_schedule steps n))
        (initState n mask_id)).seq := by
  obtain ⟨s, rfl⟩ : ∃ s, steps = s + 1 :=
    ⟨steps - 1, (Nat.succ_pred_eq_of_pos hsteps).symm⟩
  have hks_len := mask_num_tokens_nat_length linear_schedule (s + 1) n
  have hs_lt : s < (mask_num_tokens_nat linear_schedule (s + 1) n).length := by
    omega
  have hlast_val :
      (mask_num_tokens_nat linear_schedule (s + 1) n).getD s 1 = 0 := by
    rw [List.getD_eq_getElem _ _ hs_lt]
    simp only [mask_num_tokens_nat, all_mask_num_tokens, List.getElem_map,
      List.getElem_range]
    have harg : (((s : ℕ) : ℚ) + 1) / (((s + 1 : ℕ)) : ℚ) = 1 := by
      push_cast
      rw [div_self]
      positivity
    rw [harg]
    simp [linear_schedule, truncLong]
  have hstep_eq : s + 1 - 1 = s := by omega
  refine ⟨by rw [hstep_eq]; exact hlast_val, ?_⟩
  have hzip_len :
      (rounds.zip (mask_num_tokens_nat linear_schedule (s + 1) n)).length
        = s + 1 := by
    simp [List.length_zip, hr, hks_len]
  intro hmem
  refine genLoop_no_mask mask_id n
    (rounds.zip (mask_num_tokens_nat linear_schedule (s + 1) n))
    (initState n mask_id)
    (fun p hp => by
      obtain ⟨r', k'⟩ := p
      exact hlen r' (List.of_mem_zip hp).1)
    (fun p hp v hv => by
      obtain ⟨r', k'⟩ := p
      exact Nat.ne_of_lt (lt_of_lt_of_le
        (hvocab r' (List.of_mem_zip hp).1 v hv) hmaskid))
    (by simp [initState]) (by simp [initState])
    (by
      intro j hj hcontra
      rw [List.getD_eq_getElem _ _
        (by simpa [initState] using hj : j < (initState n mask_id).mask.length)] at hcontra
      simp [initState] at hcontra)
    ?_ mask_id hmem rfl
  -- the last round's target count is zero
  have hsz : s < (rounds.zip (mask_num_tokens_nat linear_schedule (s + 1) n)).length := by
    omega
  refine ⟨(rounds.zip (mask_num_tokens_nat linear_schedule (s + 1) n))[s], ?_, ?_⟩
  · rw [List.getLast?_eq_getElem?]
    have hlen1 : (rounds.zip
        (mask_num_tokens_nat linear_schedule (s + 1) n)).length - 1 = s := by
      omega
    rw [hlen1, List.getElem?_eq_getElem hsz]
  · rw [List.getElem_zip]
    show (mask_num_tokens_nat linear_schedule (s + 1) n)[s] = 0
    rw [← List.getD_eq_getElem _ 1 hs_lt]
    exact hlast_val

/-- Witness for C5: a single linear round (`steps = 1`) on rows of length 2
with vocabulary `{0,1,2}` and `mask_id = 5`. -/
theorem generate_linear_full_unmask_witness :
    (mask_num_tokens_nat linear_schedule 1 2).getD 0 1 = 0
    ∧ 5 ∉ (genLoop 5
        ([⟨[1, 2], [mkRat 1 2, mkRat 1 4]⟩].zip
          (mask_num_tokens_nat linear_schedule 1 2))
        (initState 2 5)).seq :=
  generate_linear_full_unmask 1 2 3 5 [⟨[1, 2], [mkRat 1 2, mkRat 1 4]⟩]
    (by decide) (by decide) (by decide) (by decide) (by decide)

/-- C8 (confirmed): once a position is unmasked and is never re-selected for
re-masking at any later round boundary, its token value is unchanged through
all subsequent rounds: the per-round update writes sampled ids only at
positions masked at the start of the round, and the re-masking overwrite
writes the mask id only at the newly selected positions. -/
theorem generate_unmasked_value_frozen (mask_id n : ℕ)
    (rks : List (Round × ℕ)) (st : GenState)
    (hlen : ∀ p ∈ rks, p.1.sampled.length = n ∧ p.1.scores.length = n)
    (hm : st.mask.length = n) (hs : st.seq.length = n) (j : ℕ)
    (hj0 : st.mask.getD j false = false)
    (htr : ∀ st' ∈ genTrace mask_id rks st, st'.mask.getD j false = false) :
    (genLoop mask_id rks st).seq.getD j 0 = st.seq.getD j 0 :=
  genLoop_frame mask_id n rks st hlen hm hs j hj0 htr

/-- Witness for C8: position 0 starts unmasked holding token 3, round 0
re-masks only position 1, and position 0 still holds 3 afterwards. -/
theorem generate_unmasked_value_frozen_witness :
    (genLoop 5 [(⟨[7, 2], [mkRat 1 2, mkRat 3 4]⟩, 1)]
        ⟨[3, 5], [false, true]⟩).seq.getD 0 0
      = (GenState.mk [3, 5] [false, true]).seq.getD 0 0 :=
  generate_unmasked_value_frozen 5 2 [(⟨[7, 2], [mkRat 1 2, mkRat 3 4]⟩, 1)]
    ⟨[3, 5], [false, true]⟩ (by decide) (by decide) (by decide) 0 (by decide)
    (by with_unfolding_all decide)

/-- C9 (confirmed): with a non-increasing schedule (fractions starting at or
below 1), an already-unmasked position is never re-selected: after every
round the mask is a subset of the mask at the start of that round, so the
masked set only shrinks across rounds. -/
theorem generate_mask_monotone (mask_id n steps : ℕ) (sched : ℚ → ℚ)
    (rounds : List Round) (hr : rounds.length = steps)
    (hlen : ∀ r ∈ rounds, r.sampled.length = n ∧ r.scores.length = n)
    (hsched1 : sched ((((0 : ℕ) : ℚ) + 1) / (steps : ℚ)) ≤ 1)
    (hmono : ∀ i : ℕ, i + 1 < steps →
      sched (((((i + 1 : ℕ)) : ℚ) + 1) / (steps : ℚ))
        ≤ sched (((i : ℚ) + 1) / (steps : ℚ)))
    (i : ℕ) (hi : i < steps) (j : ℕ)
    (h : ((genTrace mask_id
        (rounds.zip (mask_num_tokens_nat sched steps n))
        (initState n mask_id)).getD (i + 1) ⟨[], []⟩).mask.getD j false
          = true) :
    ((genTrace mask_id (rounds.zip (mask_num_tokens_nat sched steps n))
        (initState n mask_id)).getD i ⟨[], []⟩).mask.getD j false = true := by
  have hks_len := mask_num_tokens_nat_length sched steps n
  have hzip_len : (rounds.zip (mask_num_tokens_nat sched steps n)).length
      = steps := by
    simp [List.length_zip, hr, hks_len]
  have hks_eq : mask_num_tokens_nat sched steps n
      = (List.range steps).map
          (fun i : ℕ => (truncLong
            (sched (((i : ℚ) + 1) / (steps : ℚ)) * (n : ℚ))).toNat) := by
    simp [mask_num_tokens_nat, all_mask_num_tokens, List.map_map,
      Function.comp_def]
  have hchain : List.Chain (fun x y => y ≤ x)
      ((initState n mask_id).mask.countP (fun b => b))
      ((rounds.zip (mask_num_tokens_nat sched steps n)).map Prod.snd) := by
    rw [List.map_snd_zip _ _ (by omega)]
    have hcnt : (initState n mask_id).mask.countP (fun b => b) = n := by
      simp [initState, List.countP_replicate]
    rw [hcnt, hks_eq]
    refine chain_ge_map_range steps _ n (fun _ => ?_) (fun i hi2 => ?_)
    · exact toNat_truncLong_le hsched1
    · refine Int.toNat_le_toNat (truncLong_mono ?_)
      have hm := hmono i hi2
      exact mul_le_mul_of_nonneg_right (by push_cast at hm ⊢; exact hm)
        (Nat.cast_nonneg n)
  exact genTrace_subset mask_id n
    (rounds.zip (mask_num_tokens_nat sched steps n)) (initState n mask_id)
    (fun p hp => by
      obtain ⟨r', k'⟩ := p
      exact hlen r' (List.of_mem_zip hp).1)
    (by simp [initState]) (by simp [initState])
    hchain i (by rw [hzip_len]; exact hi) j h

/-- Witness for C9: two linear-schedule rounds; position 0 is masked after
round 0 (`mask = [T, F]`) and was masked at the start (all-true initial
mask). -/
theorem generate_mask_monotone_witness :
    ((genTrace 9 ([⟨[1, 0], [mkRat 1 2, mkRat 1 4]⟩,
        ⟨[0, 1], [mkRat 1 3, mkRat 2 3]⟩].zip
          (mask_num_tokens_nat linear_schedule 2 2))
        (initState 2 9)).getD 0 ⟨[], []⟩).mask.getD 0 false = true :=
  generate_mask_monotone 9 2 2 linear_schedule
    [⟨[1, 0], [mkRat 1 2, mkRat 1 4]⟩, ⟨[0, 1], [mkRat 1 3, mkRat 2 3]⟩]
    (by decide) (by decide)
    (by unfold linear_schedule; norm_num)
    (by
      intro i hi
      have hzero : i = 0 := by omega
      subst hzero
      unfold linear_schedule
      norm_num)
    0 (by decide) 0 (by with_unfolding_all decide)

end NAW
